import Mathlib

/-!
Shallow embedding of the top-k recommendation evaluator of this repository
(the notebook functions `predict_from_latent` and `precision_at_k`).

Modelling conventions:
* A ratings DataFrame (`train_ratings`, `test_ratings`) is a list of
  `(user_id, item_id)` rows.
* `pandas` `groupby('user_id')` iterates the distinct user ids in ascending
  order; each group is the (necessarily non-empty) list of that user's rows.
* `numpy` float scores are modelled as exact rationals; the sentinel
  `-math.inf` written by the masking step is `⊥` of `WithBot ℚ`, which is
  strictly below every finite score.
* `np.argsort(-predictions)` is a deterministic sort of the indices by
  descending score; it is modelled by the stable `List.insertionSort` with
  ties kept in ascending index order.
-/

namespace Mlbd

/-- A finite score (a `numpy` float, modelled exactly). -/
abbrev Score := ℚ

/-- A possibly-masked score: `⊥` stands for the `-math.inf` sentinel. -/
abbrev MScore := WithBot ℚ

/-- A ratings table: one `(user_id, item_id)` row per interaction. -/
abbrev Ratings := List (ℕ × ℕ)

/-- The sequence of group keys produced by `test_ratings.groupby('user_id')`:
the distinct user ids appearing in the table, in ascending order. -/
def groupUsers (rs : Ratings) : List ℕ :=
  ((rs.map Prod.fst).dedup).insertionSort (· ≤ ·)

/-- `train_ratings[train_ratings['user_id'] == user_id]['item_id'].values`. -/
def trainPids (train_ratings : Ratings) (user_id : ℕ) : List ℕ :=
  (train_ratings.filter (fun r => r.1 == user_id)).map Prod.snd

/-- `set(user_test_rating['item_id'].values)`: the held-out item set of a
user, read off from the test table. -/
def testPids (test_ratings : Ratings) (user_id : ℕ) : Finset ℕ :=
  ((test_ratings.filter (fun r => r.1 == user_id)).map Prod.snd).toFinset

/-- `predictions[train_pids] = -math.inf`: overwrite the entries of a score
array at the listed (in-range) indices with the `-inf` sentinel. -/
def maskWrites (a : List MScore) (train_pids : List ℕ) : List MScore :=
  a.enum.map (fun p => if p.1 ∈ train_pids then (⊥ : MScore) else p.2)

/-- Read a score array at an index (every use is in range). -/
def scoreAt (a : List MScore) (i : ℕ) : MScore :=
  a.getD i ⊥

/-- `np.argsort(-predictions)`: the indices of the array sorted by
descending score (deterministic; ties in ascending index order). -/
def argsortDesc (a : List MScore) : List ℕ :=
  (List.range a.length).insertionSort (fun i j => scoreAt a j ≤ scoreAt a i)

/-- `np.argsort(-predictions)[:k]`: the top-`k` ranked item identifiers. -/
def topK (a : List MScore) (k : ℕ) : List ℕ :=
  (argsortDesc a).take k

/-- The caller-supplied `pred_func(model, user_id, pid_array, train_ratings)`
capability: one finite score per candidate item. -/
abbrev PredFunc (μ : Type) := μ → ℕ → List ℕ → Ratings → List Score

/-- The masked score array the evaluator builds for one user: the scores of
all candidates `[0, no_items)`, with the user's training items forced
to `-inf`. -/
def userMasked {μ : Type} (model : μ) (pred_func : PredFunc μ)
    (train_ratings : Ratings) (no_items : ℕ) (user_id : ℕ) : List MScore :=
  maskWrites
    ((pred_func model user_id (List.range no_items) train_ratings).map WithBot.some)
    (trainPids train_ratings user_id)

/-- The top-`k` list the evaluator computes for one user. -/
def userTopK {μ : Type} (model : μ) (pred_func : PredFunc μ)
    (train_ratings : Ratings) (no_items k : ℕ) (user_id : ℕ) : List ℕ :=
  topK (userMasked model pred_func train_ratings no_items user_id) k

/-- The per-user precision value `len(top_k & test_pids) / float(k)`. -/
def userPrecision {μ : Type} (model : μ) (pred_func : PredFunc μ)
    (train_ratings test_ratings : Ratings) (no_items k : ℕ)
    (user_id : ℕ) : ℚ :=
  (((userTopK model pred_func train_ratings no_items k user_id).toFinset ∩
      testPids test_ratings user_id).card : ℚ) / (k : ℚ)

/-- The evaluator `precision_at_k(model, pred_func, train_ratings,
test_ratings, no_users, no_items, k)`: for each user of the test table (in
`groupby` order) score all candidates, mask the seen items to `-inf`, take
the top-`k` by descending score, and append
`len(top_k & test_pids) / float(k)` to the result list. -/
def precision_at_k {μ : Type} (model : μ) (pred_func : PredFunc μ)
    (train_ratings test_ratings : Ratings)
    (no_users no_items : ℕ) (k : ℕ) : List ℚ :=
  let pid_array := List.range no_items
  (groupUsers test_ratings).foldl (fun precisions user_id =>
    let train_pids := trainPids train_ratings user_id
    let test_pids := testPids test_ratings user_id
    let predictions := pred_func model user_id pid_array train_ratings
    let masked := maskWrites (predictions.map WithBot.some) train_pids
    let top_k := (topK masked k).toFinset
    precisions ++ [((top_k ∩ test_pids).card : ℚ) / (k : ℚ)]) []

/-! ### The latent-factor score function `predict_from_latent` -/

/-- A trained latent-factor model, as read through
`model.get_layer('user_matrix')` / `model.get_layer('item_matrix')`:
one embedding row per user, one per item. -/
structure LatentModel where
  user_matrix : List (List ℚ)
  item_matrix : List (List ℚ)

/-- The dot product of two vectors. -/
def dotp (v w : List ℚ) : ℚ :=
  (List.zipWith (fun a b => a * b) v w).sum

/-- `np.dot(v, m.T)` for a stack `m` of rows: one entry per row of `m`,
namely the dot product of `v` with that row. -/
def npDotMT (v : List ℚ) (m : List (List ℚ)) : List ℚ :=
  m.map (fun row => dotp v row)

/-- `predict_from_latent(model, uid, pids, train_ratings)`: look up the
user's embedding row and the candidate items' embedding rows and return
`np.dot(user_vector, item_matrix.T)`. -/
def predict_from_latent (model : LatentModel) (uid : ℕ) (pids : List ℕ)
    (train_ratings : Ratings) : List Score :=
  let user_vector := model.user_matrix.getD uid []
  let item_matrix := pids.map (fun p => model.item_matrix.getD p [])
  npDotMT user_vector item_matrix

/-! ### State-passing embedding (for the mutation / frame claims)

The numpy line `predictions[train_pids] = -math.inf` writes into the array
object returned by `pred_func`.  To reason about this in-place write, the
evaluator is also embedded with an explicit store: the inputs together with
a heap of score arrays, through which the score function returns a
*reference* (heap index) to its result array.  The loop reads the array at
that reference, overwrites it in place with the masked scores, and leaves
the other fields untouched. -/

/-- The mutable world of an evaluation run: the inputs plus a heap of
numpy score arrays (each a heap cell addressed by its index). -/
structure EvalSt (μ : Type) where
  model : μ
  train_ratings : Ratings
  test_ratings : Ratings
  heap : List (List MScore)

/-- A stateful score function: given the world, a user id and the
candidate array, it returns the (possibly updated) world and a reference
to the array holding the scores. -/
abbrev PredFuncSt (μ : Type) := EvalSt μ → ℕ → List ℕ → EvalSt μ × ℕ

/-- One iteration of the `precision_at_k` loop over one user, on the
explicit store: call the score function, overwrite the returned array in
place with `-inf` at the user's training items, and append the per-user
precision. -/
def stStep {μ : Type} (pred_func : PredFuncSt μ) (no_items k : ℕ)
    (acc : EvalSt μ × List ℚ) (user_id : ℕ) : EvalSt μ × List ℚ :=
  let s := acc.1
  let train_pids := trainPids s.train_ratings user_id
  let test_pids := testPids s.test_ratings user_id
  let pr := pred_func s user_id (List.range no_items)
  let masked := maskWrites (pr.1.heap.getD pr.2 []) train_pids
  let s2 := { pr.1 with heap := pr.1.heap.set pr.2 masked }
  let top_k := (topK masked k).toFinset
  (s2, acc.2 ++ [((top_k ∩ test_pids).card : ℚ) / (k : ℚ)])

/-- `precision_at_k` on the explicit store: fold the per-user loop over
the `groupby` user sequence of the test table. -/
def precision_at_k_st {μ : Type} (pred_func : PredFuncSt μ)
    (no_users no_items k : ℕ) (s0 : EvalSt μ) : EvalSt μ × List ℚ :=
  (groupUsers s0.test_ratings).foldl (stStep pred_func no_items k) (s0, [])

/-- `predict_from_latent` on the explicit store: it reads the embedding
tables, allocates a fresh array for `np.dot(user_vector, item_matrix.T)`
and returns a reference to it, leaving every existing cell and every other
field unchanged. -/
def predict_from_latent_st (s : EvalSt LatentModel) (uid : ℕ)
    (pids : List ℕ) : EvalSt LatentModel × ℕ :=
  ({ s with heap := s.heap ++
      [(predict_from_latent s.model uid pids s.train_ratings).map
        WithBot.some] },
   s.heap.length)

/-! ### Binary64 model of the final division

The evaluator's per-user value is computed in Python as
`len(top_k & test_pids) / float(k)`: an IEEE-754 binary64 (float64)
division of two exact nonnegative integers, i.e. the double nearest to the
exact quotient.  Every double is a rational number, so the rounding is
modelled exactly over ℚ: `fl64Div N D` is the binary64 value of `N / D`
(round to nearest, ties to even), computed with integer arithmetic only.
The fuel bound 4096 of the binary logarithm covers every binary64
magnitude. -/

/-- Fuel-bounded floor of the binary logarithm of a natural number. -/
def log2F : ℕ → ℕ → ℕ
  | 0, _ => 0
  | fuel + 1, n => if n < 2 then 0 else log2F fuel (n / 2) + 1

/-- Round the exact quotient `N / D` (for `D > 0`) to the nearest integer,
ties to even — the IEEE-754 rounding of a quotient whose result is scaled
to an integer. -/
def roundRatHalfEven (N D : ℤ) : ℤ :=
  let n0 := Int.fdiv N D
  let r := N - n0 * D
  if 2 * r < D then n0
  else if D < 2 * r then n0 + 1
  else if n0 % 2 = 0 then n0 else n0 + 1

/-- Floor of the binary logarithm of the positive quotient `N / D`. -/
def floorLog2Q (N D : ℤ) : ℤ :=
  let c : ℤ := (log2F 4096 N.natAbs : ℤ) - (log2F 4096 D.natAbs : ℤ)
  if (if 0 ≤ c then D * 2 ^ c.toNat ≤ N else D ≤ N * 2 ^ (-c).toNat)
  then c else c - 1

/-- The IEEE-754 binary64 value of the division `N / D` of a nonnegative
integer by a positive integer: the 53-bit significand is obtained by
rounding the quotient scaled to `[2^52, 2^53]`, ties to even. -/
def fl64Div (N D : ℤ) : ℚ :=
  if N ≤ 0 then 0
  else if 52 ≤ floorLog2Q N D then
    Rat.divInt
      (roundRatHalfEven N (D * 2 ^ (floorLog2Q N D - 52).toNat)
        * 2 ^ (floorLog2Q N D - 52).toNat) 1
  else
    Rat.divInt (roundRatHalfEven (N * 2 ^ (52 - floorLog2Q N D).toNat) D)
      (2 ^ (52 - floorLog2Q N D).toNat)

/-- The per-user value of the evaluator with the final division taken in
float64: the binary64 rounding of `len(top_k & test_pids) / float(k)`. -/
def userPrecisionF64 {μ : Type} (model : μ) (pred_func : PredFunc μ)
    (train_ratings test_ratings : Ratings) (no_items k : ℕ)
    (user_id : ℕ) : ℚ :=
  fl64Div
    (((userTopK model pred_func train_ratings no_items k user_id).toFinset ∩
        testPids test_ratings user_id).card : ℤ) (k : ℤ)

/-- `precision_at_k` with its final division modelled in float64 instead of
exact rational arithmetic: the same pipeline (groupby, scoring, `-inf`
masking, argsort, top-`k`, intersection count), with each appended value
the binary64 rounding of `len(top_k & test_pids) / float(k)`.  The score
comparisons stay exact (ℚ embeds every double exactly). -/
def precision_at_k_f64 {μ : Type} (model : μ) (pred_func : PredFunc μ)
    (train_ratings test_ratings : Ratings)
    (no_users no_items : ℕ) (k : ℕ) : List ℚ :=
  let pid_array := List.range no_items
  (groupUsers test_ratings).foldl (fun precisions user_id =>
    let train_pids := trainPids train_ratings user_id
    let test_pids := testPids test_ratings user_id
    let predictions := pred_func model user_id pid_array train_ratings
    let masked := maskWrites (predictions.map WithBot.some) train_pids
    let top_k := (topK masked k).toFinset
    precisions ++ [fl64Div ((top_k ∩ test_pids).card : ℤ) (k : ℤ)]) []

/-! ### Helper lemmas -/

theorem foldl_append_singleton_eq_map {α β : Type _} (f : α → β) :
    ∀ (l : List α) (acc : List β),
      l.foldl (fun precisions x => precisions ++ [f x]) acc = acc ++ l.map f
  | [], acc => by simp
  | x :: t, acc => by
    rw [List.foldl_cons, foldl_append_singleton_eq_map f t (acc ++ [f x])]
    simp

/-- The evaluator's loop is the map of the per-user precision over the
`groupby` user sequence. -/
theorem precision_at_k_eq_map {μ : Type} (model : μ) (pred_func : PredFunc μ)
    (train_ratings test_ratings : Ratings) (no_users no_items k : ℕ) :
    precision_at_k model pred_func train_ratings test_ratings no_users no_items k
      = (groupUsers test_ratings).map
          (userPrecision model pred_func train_ratings test_ratings no_items k) :=
  (foldl_append_singleton_eq_map _ _ _).trans (List.nil_append _)

theorem mem_groupUsers {rs : Ratings} {u : ℕ} :
    u ∈ groupUsers rs ↔ u ∈ rs.map Prod.fst := by
  unfold groupUsers
  rw [List.mem_insertionSort, List.mem_dedup]

theorem groupUsers_nodup (rs : Ratings) : (groupUsers rs).Nodup :=
  (List.perm_insertionSort _ _).nodup_iff.2 (List.nodup_dedup _)

theorem testPids_nonempty_of_mem_groupUsers {rs : Ratings} {u : ℕ}
    (hu : u ∈ groupUsers rs) : (testPids rs u).Nonempty := by
  rw [mem_groupUsers, List.mem_map] at hu
  obtain ⟨row, hrow, hfst⟩ := hu
  refine ⟨row.2, ?_⟩
  unfold testPids
  rw [List.mem_toFinset, List.mem_map]
  exact ⟨row, List.mem_filter.2 ⟨hrow, by simp [hfst]⟩, rfl⟩

theorem not_mem_groupUsers_of_testPids_empty {rs : Ratings} {u : ℕ}
    (h : testPids rs u = ∅) : u ∉ groupUsers rs := fun hu =>
  (testPids_nonempty_of_mem_groupUsers hu).ne_empty h

theorem maskWrites_length (a : List MScore) (tp : List ℕ) :
    (maskWrites a tp).length = a.length := by
  simp [maskWrites]

theorem scoreAt_eq_getElem {a : List MScore} {i : ℕ} (hi : i < a.length) :
    scoreAt a i = a[i] :=
  List.getD_eq_getElem a ⊥ hi

theorem scoreAt_maskWrites_of_mem {a : List MScore} {tp : List ℕ} {i : ℕ}
    (hi : i < a.length) (h : i ∈ tp) : scoreAt (maskWrites a tp) i = ⊥ := by
  rw [scoreAt_eq_getElem (by rw [maskWrites_length]; exact hi)]
  simp only [maskWrites, List.getElem_map, List.getElem_enum]
  simp [h]

theorem scoreAt_maskWrites_of_not_mem {a : List MScore} {tp : List ℕ} {i : ℕ}
    (hi : i < a.length) (h : i ∉ tp) :
    scoreAt (maskWrites a tp) i = scoreAt a i := by
  rw [scoreAt_eq_getElem (by rw [maskWrites_length]; exact hi),
    scoreAt_eq_getElem hi]
  simp only [maskWrites, List.getElem_map, List.getElem_enum]
  simp [h]

theorem scoreAt_maskWrites_of_bot {a : List MScore} {tp : List ℕ} {i : ℕ}
    (hi : i < a.length) (h : scoreAt a i = ⊥) :
    scoreAt (maskWrites a tp) i = ⊥ := by
  by_cases hm : i ∈ tp
  · exact scoreAt_maskWrites_of_mem hi hm
  · rw [scoreAt_maskWrites_of_not_mem hi hm]; exact h

theorem argsortDesc_perm (a : List MScore) :
    List.Perm (argsortDesc a) (List.range a.length) :=
  List.perm_insertionSort _ _

theorem mem_argsortDesc {a : List MScore} {i : ℕ} :
    i ∈ argsortDesc a ↔ i < a.length := by
  rw [(argsortDesc_perm a).mem_iff, List.mem_range]

theorem argsortDesc_nodup (a : List MScore) : (argsortDesc a).Nodup :=
  (argsortDesc_perm a).nodup_iff.2 (List.nodup_range _)

theorem argsortDesc_length (a : List MScore) :
    (argsortDesc a).length = a.length := by
  rw [(argsortDesc_perm a).length_eq, List.length_range]

theorem argsortDesc_sorted (a : List MScore) :
    (argsortDesc a).Sorted (fun i j => scoreAt a j ≤ scoreAt a i) :=
  @List.sorted_insertionSort ℕ (fun i j => scoreAt a j ≤ scoreAt a i) _
    ⟨fun i j => (le_total (scoreAt a i) (scoreAt a j)).symm⟩
    ⟨fun _ _ _ hij hjk => le_trans hjk hij⟩
    (List.range a.length)

theorem mem_topK_lt_length {a : List MScore} {k i : ℕ} (h : i ∈ topK a k) :
    i < a.length :=
  mem_argsortDesc.1 (List.mem_of_mem_take h)

theorem topK_nodup (a : List MScore) (k : ℕ) : (topK a k).Nodup :=
  (argsortDesc_nodup a).sublist (List.take_sublist _ _)

theorem topK_length (a : List MScore) (k : ℕ) :
    (topK a k).length = min k a.length := by
  rw [topK, List.length_take, argsortDesc_length]

/-- Every selected index outranks (scores at least as high as) every
unselected in-range index: the top-`k` really is a set of `k` highest-scoring
items. -/
theorem topK_highest {a : List MScore} {k x y : ℕ} (hx : x ∈ topK a k)
    (hy : y < a.length) (hyn : y ∉ topK a k) :
    scoreAt a y ≤ scoreAt a x := by
  have hmem : y ∈ argsortDesc a := mem_argsortDesc.2 hy
  have hdrop : y ∈ (argsortDesc a).drop k := by
    rcases (List.mem_append.1
      (by rw [List.take_append_drop k (argsortDesc a)]; exact hmem)) with h | h
    · exact absurd h hyn
    · exact h
  exact (argsortDesc_sorted a).rel_of_mem_take_of_mem_drop hx hdrop

theorem userTopK_eq {μ : Type} (model : μ) (pred_func : PredFunc μ)
    (train_ratings : Ratings) (no_items k u : ℕ) :
    userTopK model pred_func train_ratings no_items k u
      = topK (userMasked model pred_func train_ratings no_items u) k :=
  rfl

theorem userMasked_length {μ : Type} {model : μ} {pred_func : PredFunc μ}
    {train_ratings : Ratings} {no_items u : ℕ}
    (hlen : (pred_func model u (List.range no_items) train_ratings).length
      = no_items) :
    (userMasked model pred_func train_ratings no_items u).length = no_items := by
  rw [userMasked, maskWrites_length, List.length_map, hlen]

theorem scoreAt_userMasked_of_train {μ : Type} {model : μ}
    {pred_func : PredFunc μ} {train_ratings : Ratings} {no_items u i : ℕ}
    (hlen : (pred_func model u (List.range no_items) train_ratings).length
      = no_items)
    (hi : i < no_items) (h : i ∈ trainPids train_ratings u) :
    scoreAt (userMasked model pred_func train_ratings no_items u) i = ⊥ :=
  scoreAt_maskWrites_of_mem (by rw [List.length_map, hlen]; exact hi) h

theorem bot_lt_scoreAt_userMasked_of_not_train {μ : Type} {model : μ}
    {pred_func : PredFunc μ} {train_ratings : Ratings} {no_items u i : ℕ}
    (hlen : (pred_func model u (List.range no_items) train_ratings).length
      = no_items)
    (hi : i < no_items) (h : i ∉ trainPids train_ratings u) :
    ⊥ < scoreAt (userMasked model pred_func train_ratings no_items u) i := by
  have hil : i < ((pred_func model u (List.range no_items) train_ratings).map
      WithBot.some).length := by
    rw [List.length_map, hlen]; exact hi
  rw [userMasked, scoreAt_maskWrites_of_not_mem hil h, scoreAt_eq_getElem hil,
    List.getElem_map]
  exact WithBot.bot_lt_coe _

/-- The entry of the output list at position `i` is the per-user precision
of the user iterated at position `i`. -/
theorem precision_at_k_getD {μ : Type} (model : μ) (pred_func : PredFunc μ)
    (train_ratings test_ratings : Ratings) (no_users no_items k i u : ℕ)
    (hi : i < (groupUsers test_ratings).length)
    (hu : (groupUsers test_ratings).get ⟨i, hi⟩ = u) :
    (precision_at_k model pred_func train_ratings test_ratings
        no_users no_items k).getD i 0
      = userPrecision model pred_func train_ratings test_ratings no_items k u := by
  rw [precision_at_k_eq_map,
    List.getD_eq_getElem _ _ (by rw [List.length_map]; exact hi),
    List.getElem_map]
  exact congrArg _ hu

theorem log2F_mono (fuel : ℕ) : ∀ {n m : ℕ}, n ≤ m →
    log2F fuel n ≤ log2F fuel m := by
  induction fuel with
  | zero => intro n m _; exact le_refl 0
  | succ f ih =>
    intro n m h
    simp only [log2F]
    by_cases hn : n < 2
    · rw [if_pos hn]
      exact Nat.zero_le _
    · have hm : ¬ m < 2 := fun hc => hn (Nat.lt_of_le_of_lt h hc)
      rw [if_neg hn, if_neg hm]
      exact Nat.succ_le_succ (ih (Nat.div_le_div_right h))

theorem floorLog2Q_nonpos {N D : ℤ} (hN : 0 < N) (hD : N ≤ D) :
    floorLog2Q N D ≤ 0 := by
  have hA : N.natAbs ≤ D.natAbs := by omega
  have hc := log2F_mono 4096 hA
  simp only [floorLog2Q]
  split
  · omega
  · omega

theorem roundRatHalfEven_mul (D m : ℤ) (hD : 0 < D) :
    roundRatHalfEven (D * m) D = m := by
  simp only [roundRatHalfEven]
  rw [Int.mul_fdiv_cancel_left m (by omega)]
  have h2 : D * m - m * D = 0 := by ring
  rw [h2, if_pos (by omega : (2 : ℤ) * 0 < D)]

/-- Binary64 division is exact on quotients `c / k` that are exactly
representable with 52 fractional bits (`k ∣ c·2^52`), for `0 ≤ c ≤ k`. -/
theorem fl64Div_eq_div_of_dvd (c k : ℕ) (hk : 1 ≤ k) (hck : c ≤ k)
    (hdy : ((c : ℤ) * 2 ^ (52 : ℕ)) % (k : ℤ) = 0) :
    fl64Div (c : ℤ) (k : ℤ) = (c : ℚ) / (k : ℚ) := by
  by_cases hc : c = 0
  · subst hc
    simp [fl64Div]
  · have hc0 : (0 : ℤ) < (c : ℤ) := by exact_mod_cast Nat.pos_of_ne_zero hc
    have hk0 : (0 : ℤ) < (k : ℤ) := by exact_mod_cast hk
    have he : floorLog2Q (c : ℤ) (k : ℤ) ≤ 0 :=
      floorLog2Q_nonpos hc0 (by exact_mod_cast hck)
    simp only [fl64Div]
    rw [if_neg (by omega : ¬ (c : ℤ) ≤ 0),
      if_neg (by omega : ¬ (52 : ℤ) ≤ floorLog2Q (c : ℤ) (k : ℤ))]
    have hT : ((52 - floorLog2Q (c : ℤ) (k : ℤ)).toNat : ℤ)
        = 52 - floorLog2Q (c : ℤ) (k : ℤ) := Int.toNat_of_nonneg (by omega)
    have hT52 : 52 ≤ (52 - floorLog2Q (c : ℤ) (k : ℤ)).toNat := by omega
    have hdvd : (k : ℤ) ∣ (c : ℤ)
        * 2 ^ (52 - floorLog2Q (c : ℤ) (k : ℤ)).toNat := by
      have h52 : (k : ℤ) ∣ (c : ℤ) * 2 ^ (52 : ℕ) :=
        Int.dvd_of_emod_eq_zero hdy
      have hsplit : (2 : ℤ) ^ (52 - floorLog2Q (c : ℤ) (k : ℤ)).toNat
          = 2 ^ (52 : ℕ)
            * 2 ^ ((52 - floorLog2Q (c : ℤ) (k : ℤ)).toNat - 52) := by
        rw [← pow_add]
        congr 1
        omega
      rw [hsplit, ← mul_assoc]
      exact Dvd.dvd.mul_right h52 _
    obtain ⟨m, hm⟩ := hdvd
    rw [hm, roundRatHalfEven_mul _ _ hk0, Rat.divInt_eq_div]
    have h2T : ((2 : ℚ) ^ (52 - floorLog2Q (c : ℤ) (k : ℤ)).toNat) ≠ 0 :=
      pow_ne_zero _ two_ne_zero
    have hkQ : ((k : ℕ) : ℚ) ≠ 0 := Nat.cast_ne_zero.2 (by omega)
    have hmQ : (c : ℚ) * 2 ^ (52 - floorLog2Q (c : ℤ) (k : ℤ)).toNat
        = (k : ℚ) * (m : ℚ) := by
      have := congrArg (fun z : ℤ => (z : ℚ)) hm
      push_cast at this
      exact this
    rw [div_eq_div_iff (by push_cast; exact h2T) hkQ]
    push_cast
    nlinarith [hmQ]

/-- The float64 evaluator loop is the map of the per-user float64 value
over the groupby user sequence. -/
theorem precision_at_k_f64_eq_map {μ : Type} (model : μ)
    (pred_func : PredFunc μ) (train_ratings test_ratings : Ratings)
    (no_users no_items k : ℕ) :
    precision_at_k_f64 model pred_func train_ratings test_ratings
        no_users no_items k
      = (groupUsers test_ratings).map
          (userPrecisionF64 model pred_func train_ratings test_ratings
            no_items k) :=
  (foldl_append_singleton_eq_map _ _ _).trans (List.nil_append _)

theorem precision_at_k_f64_getD {μ : Type} (model : μ)
    (pred_func : PredFunc μ) (train_ratings test_ratings : Ratings)
    (no_users no_items k i u : ℕ)
    (hi : i < (groupUsers test_ratings).length)
    (hu : (groupUsers test_ratings).get ⟨i, hi⟩ = u) :
    (precision_at_k_f64 model pred_func train_ratings test_ratings
        no_users no_items k).getD i 0
      = userPrecisionF64 model pred_func train_ratings test_ratings
          no_items k u := by
  rw [precision_at_k_f64_eq_map,
    List.getD_eq_getElem _ _ (by rw [List.length_map]; exact hi),
    List.getElem_map]
  exact congrArg _ hu

/-! ### Claim theorems -/

/-- C1: for every user present in TestHistory (the user `u` iterated at
position `i` of the groupby sequence), the value `precision_at_k` produces
for that user equals `|top-k ∩ TestHistory(u)| / k`, where the top-k is a
set of exactly `k` item identifiers from `[0, no_items)` each of whose
scores — after the scores of `u`'s TrainingHistory items are forced to
negative infinity — is at least the score of every unselected candidate. -/
theorem precision_value_eq_topk_inter_div_k {μ : Type} (model : μ)
    (pred_func : PredFunc μ) (train_ratings test_ratings : Ratings)
    (no_users no_items k i u : ℕ)
    (hk : k ≤ no_items)
    (hlen : (pred_func model u (List.range no_items) train_ratings).length
      = no_items)
    (hi : i < (groupUsers test_ratings).length)
    (hu : (groupUsers test_ratings).get ⟨i, hi⟩ = u) :
    (precision_at_k model pred_func train_ratings test_ratings
        no_users no_items k).getD i 0
      = (((userTopK model pred_func train_ratings no_items k u).toFinset ∩
            testPids test_ratings u).card : ℚ) / (k : ℚ)
    ∧ (userTopK model pred_func train_ratings no_items k u).toFinset.card = k
    ∧ (∀ x ∈ (userTopK model pred_func train_ratings no_items k u).toFinset,
        x < no_items)
    ∧ ∀ x ∈ (userTopK model pred_func train_ratings no_items k u).toFinset,
        ∀ y, y < no_items →
          y ∉ (userTopK model pred_func train_ratings no_items k u).toFinset →
          scoreAt (userMasked model pred_func train_ratings no_items u) y ≤
            scoreAt (userMasked model pred_func train_ratings no_items u) x := by
  have hm : (userMasked model pred_func train_ratings no_items u).length
      = no_items := userMasked_length hlen
  refine ⟨?_, ?_, ?_, ?_⟩
  · rw [precision_at_k_getD model pred_func train_ratings test_ratings
      no_users no_items k i u hi hu]
    rfl
  · rw [userTopK_eq, List.toFinset_card_of_nodup (topK_nodup _ _), topK_length,
      hm, Nat.min_eq_left hk]
  · intro x hx
    rw [userTopK_eq, List.mem_toFinset] at hx
    have := mem_topK_lt_length hx
    rwa [hm] at this
  · intro x hx y hy hyn
    rw [userTopK_eq, List.mem_toFinset] at hx
    rw [userTopK_eq, List.mem_toFinset] at hyn
    exact topK_highest hx (by rw [hm]; exact hy) hyn

theorem precision_value_eq_topk_inter_div_k_witness :
    (precision_at_k () (fun _ _ _ _ => ([5, 10, 0, 1] : List ℚ)) [(0, 0)]
        [(0, 1), (0, 2)] 1 4 2).getD 0 0
      = (((userTopK () (fun _ _ _ _ => ([5, 10, 0, 1] : List ℚ)) [(0, 0)]
            4 2 0).toFinset ∩ testPids [(0, 1), (0, 2)] 0).card : ℚ) / (2 : ℚ)
    ∧ (userTopK () (fun _ _ _ _ => ([5, 10, 0, 1] : List ℚ)) [(0, 0)]
        4 2 0).toFinset.card = 2 :=
  ⟨(precision_value_eq_topk_inter_div_k () (fun _ _ _ _ => [5, 10, 0, 1])
      [(0, 0)] [(0, 1), (0, 2)] 1 4 2 0 0 (by decide) (by decide) (by decide)
      (by decide)).1,
   (precision_value_eq_topk_inter_div_k () (fun _ _ _ _ => [5, 10, 0, 1])
      [(0, 0)] [(0, 1), (0, 2)] 1 4 2 0 0 (by decide) (by decide) (by decide)
      (by decide)).2.1⟩

/-- C2 is false as stated: with `no_items = 2`, `k = 2`,
TrainingHistory = {user0: {0}} and TestHistory = {user0: {1}}, user 0 is
iterated by the evaluator and its top-2 list contains item 0, an item of
that user's TrainingHistory (fewer than `k` candidates are unseen, so the
top-k is padded with `-inf`-masked seen items). -/
theorem topk_contains_seen_item_when_unseen_lt_k :
    0 ∈ groupUsers [(0, 1)]
    ∧ 0 ∈ userTopK () (fun _ _ _ _ => ([5, 7] : List ℚ)) [(0, 0)] 2 2 0
    ∧ 0 ∈ trainPids [(0, 0)] 0 := by decide

/-- C2 (amended): for every user whose TrainingHistory items all lie in
`[0, no_items)` (the data model's invariant — numpy raises IndexError on
an out-of-range index), the top-k list computed by `precision_at_k` never
contains an item of that user's TrainingHistory, provided at least `k` of
the candidate items `[0, no_items)` lie outside that user's
TrainingHistory. -/
theorem topk_avoids_train_of_enough_unseen {μ : Type} (model : μ)
    (pred_func : PredFunc μ) (train_ratings : Ratings) (no_items k u : ℕ)
    (hlen : (pred_func model u (List.range no_items) train_ratings).length
      = no_items)
    (htr : ∀ p ∈ trainPids train_ratings u, p < no_items)
    (hk : k ≤ ((Finset.range no_items).filter
        (fun j => j ∉ trainPids train_ratings u)).card) :
    ∀ i ∈ userTopK model pred_func train_ratings no_items k u,
      i ∉ trainPids train_ratings u := by
  intro i hit hitrain
  rw [userTopK_eq] at hit
  have hm : (userMasked model pred_func train_ratings no_items u).length
      = no_items := userMasked_length hlen
  have hSn : ((Finset.range no_items).filter
      (fun j => j ∉ trainPids train_ratings u)).card ≤ no_items :=
    le_trans (Finset.card_filter_le _ _) (by simp)
  have hkn : k ≤ no_items := le_trans hk hSn
  have hilt : i < no_items := by
    have := mem_topK_lt_length hit
    rwa [hm] at this
  have hcardA : (userTopK model pred_func train_ratings no_items k
      u).toFinset.card = k := by
    rw [userTopK_eq, List.toFinset_card_of_nodup (topK_nodup _ _), topK_length,
      hm, Nat.min_eq_left hkn]
  have hiA : i ∈ (userTopK model pred_func train_ratings no_items k
      u).toFinset := by
    rw [userTopK_eq, List.mem_toFinset]; exact hit
  have hibot : scoreAt (userMasked model pred_func train_ratings no_items u) i
      = ⊥ := scoreAt_userMasked_of_train hlen hilt hitrain
  have hSsub : (Finset.range no_items).filter
      (fun j => j ∉ trainPids train_ratings u) ⊆
      (userTopK model pred_func train_ratings no_items k u).toFinset := by
    intro b hb
    rw [Finset.mem_filter, Finset.mem_range] at hb
    by_contra hbA
    have hle := topK_highest hit (by rw [hm]; exact hb.1)
      (fun hc => hbA (by rw [userTopK_eq, List.mem_toFinset]; exact hc))
    rw [hibot] at hle
    exact absurd (le_bot_iff.1 hle)
      (ne_of_gt (bot_lt_scoreAt_userMasked_of_not_train hlen hb.1 hb.2))
  have hiS : i ∉ (Finset.range no_items).filter
      (fun j => j ∉ trainPids train_ratings u) := by
    rw [Finset.mem_filter]
    exact fun hc => hc.2 hitrain
  have hsub : (Finset.range no_items).filter
      (fun j => j ∉ trainPids train_ratings u) ⊆
      ((userTopK model pred_func train_ratings no_items k u).toFinset).erase
        i :=
    fun b hb => Finset.mem_erase.2 ⟨fun hbi => hiS (hbi ▸ hb), hSsub hb⟩
  have hcard := Finset.card_le_card hsub
  rw [Finset.card_erase_of_mem hiA, hcardA] at hcard
  have hk1 : 1 ≤ k := hcardA ▸ Finset.card_pos.2 ⟨i, hiA⟩
  omega

theorem topk_avoids_train_of_enough_unseen_witness :
    (1 : ℕ) ∉ trainPids [(0, 0)] 0 :=
  topk_avoids_train_of_enough_unseen () (fun _ _ _ _ => ([5, 7] : List ℚ))
    [(0, 0)] 2 1 0 (by decide) (by decide) (by decide) 1 (by decide)

/-- C6 is false as stated for the float64 program: with `k = 49` and one
relevant item in the top-49 (count 1), the value returned — the binary64
rounding of `1 / 49.0` — multiplied by `49` is
`288230376151711721 / 2^58 ≠ 1`: not the integer count. -/
theorem precision_f64_times_k_not_integer :
    (precision_at_k_f64 ()
        (fun _ _ _ _ => (List.range 49).map (fun n => Rat.divInt n 1)) []
        [(0, 0)] 1 49 49).getD 0 0 * (49 : ℚ)
      ≠ (((userTopK ()
            (fun _ _ _ _ => (List.range 49).map (fun n => Rat.divInt n 1)) []
            49 49 0).toFinset ∩ testPids [(0, 0)] 0).card : ℚ) := by
  have hcard : ((userTopK ()
      (fun _ _ _ _ => (List.range 49).map (fun n => Rat.divInt n 1)) []
      49 49 0).toFinset ∩ testPids [(0, 0)] 0).card = 1 := by decide
  have hval : (precision_at_k_f64 ()
      (fun _ _ _ _ => (List.range 49).map (fun n => Rat.divInt n 1)) []
      [(0, 0)] 1 49 49).getD 0 0
      = Rat.divInt 5882252574524729 288230376151711744 := by decide
  rw [hval, hcard, Nat.cast_one, Rat.divInt_eq_div]
  norm_num

/-- C6 (amended): for every user (the user `u` iterated at position `i`)
and every `k ≥ 1` such that the quotient `|top-k ∩ TestHistory(u)| / k` is
exactly representable in binary64 (`k` divides `count·2^52` — in
particular whenever `k` is a power of two), the float64 value returned by
`precision_at_k` multiplied by `k` is exactly the integer
`|top-k ∩ TestHistory(u)|`, and the value lies in `[0, 1]`; for other `k`
the returned double is the correctly-rounded quotient and its product
with `k` can differ from the count by rounding. -/
theorem precision_f64_times_k_exact_when_representable {μ : Type} (model : μ)
    (pred_func : PredFunc μ) (train_ratings test_ratings : Ratings)
    (no_users no_items k i u : ℕ)
    (hk : 1 ≤ k)
    (hi : i < (groupUsers test_ratings).length)
    (hu : (groupUsers test_ratings).get ⟨i, hi⟩ = u)
    (hdy : ((((userTopK model pred_func train_ratings no_items k u).toFinset ∩
        testPids test_ratings u).card : ℤ) * 2 ^ (52 : ℕ)) % (k : ℤ) = 0) :
    (precision_at_k_f64 model pred_func train_ratings test_ratings
        no_users no_items k).getD i 0 * (k : ℚ)
      = (((userTopK model pred_func train_ratings no_items k u).toFinset ∩
          testPids test_ratings u).card : ℚ)
    ∧ 0 ≤ (precision_at_k_f64 model pred_func train_ratings test_ratings
        no_users no_items k).getD i 0
    ∧ (precision_at_k_f64 model pred_func train_ratings test_ratings
        no_users no_items k).getD i 0 ≤ 1 := by
  have hval := precision_at_k_f64_getD model pred_func train_ratings
    test_ratings no_users no_items k i u hi hu
  have hck : ((userTopK model pred_func train_ratings no_items k u).toFinset ∩
      testPids test_ratings u).card ≤ k :=
    le_trans (Finset.card_le_card Finset.inter_subset_left)
      (le_trans (List.toFinset_card_le _)
        (by rw [userTopK_eq, topK_length]; exact Nat.min_le_left _ _))
  have hexact : userPrecisionF64 model pred_func train_ratings test_ratings
      no_items k u
      = ((((userTopK model pred_func train_ratings no_items k u).toFinset ∩
          testPids test_ratings u).card : ℕ) : ℚ) / (k : ℚ) :=
    fl64Div_eq_div_of_dvd _ k hk hck hdy
  have hkq : (k : ℚ) ≠ 0 := Nat.cast_ne_zero.2 (by omega)
  have hkpos : (0 : ℚ) < (k : ℚ) := by
    exact_mod_cast Nat.lt_of_lt_of_le Nat.zero_lt_one hk
  refine ⟨?_, ?_, ?_⟩
  · rw [hval, hexact]
    exact div_mul_cancel₀ _ hkq
  · rw [hval, hexact]
    positivity
  · rw [hval, hexact]
    rw [div_le_one hkpos]
    exact_mod_cast hck

theorem precision_f64_times_k_exact_when_representable_witness :
    (precision_at_k_f64 () (fun _ _ _ _ => ([5, 10, 0, 1] : List ℚ)) [(0, 0)]
        [(0, 1), (0, 2)] 1 4 2).getD 0 0 * (2 : ℚ)
      = (((userTopK () (fun _ _ _ _ => ([5, 10, 0, 1] : List ℚ)) [(0, 0)]
            4 2 0).toFinset ∩ testPids [(0, 1), (0, 2)] 0).card : ℚ)
    ∧ 0 ≤ (precision_at_k_f64 () (fun _ _ _ _ => ([5, 10, 0, 1] : List ℚ))
        [(0, 0)] [(0, 1), (0, 2)] 1 4 2).getD 0 0 :=
  ⟨(precision_f64_times_k_exact_when_representable ()
      (fun _ _ _ _ => [5, 10, 0, 1]) [(0, 0)] [(0, 1), (0, 2)] 1 4 2 0 0
      (by decide) (by decide) (by decide) (by decide)).1,
   (precision_f64_times_k_exact_when_representable ()
      (fun _ _ _ _ => [5, 10, 0, 1]) [(0, 0)] [(0, 1), (0, 2)] 1 4 2 0 0
      (by decide) (by decide) (by decide) (by decide)).2.1⟩

/-- C7: in the concrete scenario with `no_items = 4`, `k = 2`,
TrainingHistory = {user0: {0}}, TestHistory = {user0: {1, 2}} and scores
`[5, 10, 0, 1]` for user 0, `precision_at_k` returns the single per-user
value `0.5` (the top-2 is `{1, 3}`, of which only item 1 is relevant). -/
theorem concrete_scenario_half :
    precision_at_k () (fun _ _ _ _ => ([5, 10, 0, 1] : List ℚ)) [(0, 0)]
      [(0, 1), (0, 2)] 1 4 2 = [1/2] := by
  have hg : groupUsers [(0, 1), (0, 2)] = [0] := by decide
  rw [precision_at_k_eq_map, hg, List.map_cons, List.map_nil]
  unfold userPrecision
  have ht : userTopK () (fun _ _ _ _ => ([5, 10, 0, 1] : List ℚ)) [(0, 0)]
      4 2 0 = [1, 3] := by decide
  have hp : testPids [(0, 1), (0, 2)] 0 = {1, 2} := by decide
  rw [ht, hp]
  have hc : ((([1, 3] : List ℕ).toFinset ∩ ({1, 2} : Finset ℕ)).card : ℚ)
      = 1 := by
    rw [show (([1, 3] : List ℕ).toFinset ∩ ({1, 2} : Finset ℕ)).card = 1
      from by decide]
    norm_num
  rw [hc]
  norm_num

/-- C3 is false as stated: on the malformed input `no_items = 0` (with
`k = 1` and one test user), `precision_at_k` silently returns the
degenerate output `[0]` instead of failing fast with a descriptive
error. -/
theorem precision_at_k_no_items_zero_returns_zero :
    precision_at_k () (fun _ _ _ _ => ([] : List ℚ)) [] [(0, 0)] 1 0 1
      = [0] := by
  have hg : groupUsers [(0, 0)] = [0] := by decide
  rw [precision_at_k_eq_map, hg, List.map_cons, List.map_nil]
  unfold userPrecision
  have ht : userTopK () (fun _ _ _ _ => ([] : List ℚ)) [] 0 1 0 = [] := by
    decide
  rw [ht]
  simp

/-- C3 (amended): `precision_at_k` performs no input validation — called
with the malformed input `no_items = 0` (and any `k ≥ 1`), in a run where
no iterated user has TrainingHistory items (so the `-inf` masking writes
nothing; with training items present the code instead dies with an
accidental IndexError on the empty score array, not a descriptive
validation error), it silently returns the degenerate per-user value `0`
for every user of TestHistory instead of failing fast. -/
theorem precision_at_k_no_validation_returns_zeros {μ : Type} (model : μ)
    (pred_func : PredFunc μ) (train_ratings test_ratings : Ratings)
    (no_users k : ℕ) (hk : 1 ≤ k)
    (hlen : ∀ u, pred_func model u (List.range 0) train_ratings = [])
    (htr : ∀ u ∈ groupUsers test_ratings, trainPids train_ratings u = []) :
    precision_at_k model pred_func train_ratings test_ratings no_users 0 k
      = (groupUsers test_ratings).map (fun _ => (0 : ℚ)) := by
  rw [precision_at_k_eq_map]
  apply List.map_congr_left
  intro u hu
  unfold userPrecision userTopK userMasked
  rw [hlen u, htr u hu]
  simp [topK, argsortDesc, maskWrites]

theorem precision_at_k_no_validation_returns_zeros_witness :
    precision_at_k () (fun _ _ _ _ => ([] : List ℚ)) [] [(0, 0), (1, 3)] 2 0 2
      = (groupUsers [(0, 0), (1, 3)]).map (fun _ => (0 : ℚ)) :=
  precision_at_k_no_validation_returns_zeros () (fun _ _ _ _ => [])
    [] [(0, 0), (1, 3)] 2 2 (by decide) (fun _ => rfl) (fun _ _ => rfl)

theorem dotp_eq_sum (d : ℕ) : ∀ v w : List ℚ, v.length = d → w.length = d →
    dotp v w = ∑ t ∈ Finset.range d, v.getD t 0 * w.getD t 0 := by
  induction d with
  | zero =>
    intro v w hv hw
    rw [List.length_eq_zero] at hv hw
    subst hv; subst hw
    simp [dotp]
  | succ n ih =>
    intro v w hv hw
    cases v with
    | nil => simp at hv
    | cons a v2 =>
      cases w with
      | nil => simp at hw
      | cons b w2 =>
        simp only [List.length_cons, Nat.succ.injEq] at hv hw
        rw [Finset.sum_range_succ']
        simp only [List.getD_cons_succ, List.getD_cons_zero]
        rw [← ih v2 w2 hv hw]
        show a * b + dotp v2 w2 = dotp v2 w2 + a * b
        ring

/-- C4: for every user identifier and every candidate list within the
embedding tables' bounds, `predict_from_latent` returns one score per
candidate, the `j`-th being the dot product
`∑ t, user_vector t * item_vector (pids j) t` of the user's embedding row
with that candidate item's embedding row. -/
theorem predict_from_latent_scores_are_dot_products (model : LatentModel)
    (uid : ℕ) (pids : List ℕ) (train_ratings : Ratings) (d : ℕ)
    (hud : (model.user_matrix.getD uid []).length = d)
    (hp : ∀ p ∈ pids, p < model.item_matrix.length)
    (hd : ∀ row ∈ model.item_matrix, row.length = d) :
    (predict_from_latent model uid pids train_ratings).length = pids.length
    ∧ ∀ j, j < pids.length →
        (predict_from_latent model uid pids train_ratings).getD j 0
          = ∑ t ∈ Finset.range d,
              (model.user_matrix.getD uid []).getD t 0 *
                (model.item_matrix.getD (pids.getD j 0) []).getD t 0 := by
  constructor
  · unfold predict_from_latent npDotMT
    simp
  · intro j hj
    unfold predict_from_latent npDotMT
    rw [List.getD_eq_getElem _ _ (by simpa using hj), List.getElem_map,
      List.getElem_map]
    rw [show pids.getD j 0 = pids[j] from List.getD_eq_getElem _ _ hj]
    refine dotp_eq_sum d _ _ hud ?_
    have hpj : pids[j] < model.item_matrix.length :=
      hp _ (List.getElem_mem hj)
    rw [List.getD_eq_getElem _ _ hpj]
    exact hd _ (List.getElem_mem hpj)

theorem predict_from_latent_scores_are_dot_products_witness :
    (predict_from_latent ⟨[[1, 2]], [[3, 4], [5, 6]]⟩ 0 [1, 0] []).length = 2
    ∧ (predict_from_latent ⟨[[1, 2]], [[3, 4], [5, 6]]⟩ 0 [1, 0] []).getD 0 0
        = ∑ t ∈ Finset.range 2,
            ((LatentModel.mk [[1, 2]] [[3, 4], [5, 6]]).user_matrix.getD
                0 []).getD t 0 *
              ((LatentModel.mk [[1, 2]] [[3, 4], [5, 6]]).item_matrix.getD
                  (([1, 0] : List ℕ).getD 0 0) []).getD t 0 :=
  ⟨(predict_from_latent_scores_are_dot_products ⟨[[1, 2]], [[3, 4], [5, 6]]⟩
      0 [1, 0] [] 2 (by decide) (by decide) (by decide)).1,
   (predict_from_latent_scores_are_dot_products ⟨[[1, 2]], [[3, 4], [5, 6]]⟩
      0 [1, 0] [] 2 (by decide) (by decide) (by decide)).2 0 (by decide)⟩

/-- C5: the output of `precision_at_k` has exactly one entry per user
present in TestHistory (the distinct, deduplicated users of the test
table), in `groupby` iteration order; every iterated user has a non-empty
held-out item set, and a user whose held-out set in the test table is
empty is not iterated and so contributes no entry (hence no division by
zero on an empty ground-truth set). -/
theorem precision_at_k_output_shape {μ : Type} (model : μ)
    (pred_func : PredFunc μ) (train_ratings test_ratings : Ratings)
    (no_users no_items k : ℕ) :
    precision_at_k model pred_func train_ratings test_ratings
        no_users no_items k
      = (groupUsers test_ratings).map
          (userPrecision model pred_func train_ratings test_ratings no_items k)
    ∧ (groupUsers test_ratings).Nodup
    ∧ (∀ u, u ∈ groupUsers test_ratings ↔ u ∈ test_ratings.map Prod.fst)
    ∧ (∀ u ∈ groupUsers test_ratings, (testPids test_ratings u).Nonempty)
    ∧ (∀ u, testPids test_ratings u = ∅ → u ∉ groupUsers test_ratings) :=
  ⟨precision_at_k_eq_map model pred_func train_ratings test_ratings
      no_users no_items k,
   groupUsers_nodup test_ratings,
   fun _ => mem_groupUsers,
   fun _ hu => testPids_nonempty_of_mem_groupUsers hu,
   fun _ h => not_mem_groupUsers_of_testPids_empty h⟩

theorem precision_at_k_output_shape_witness :
    precision_at_k () (fun _ _ _ _ => ([5, 10, 0, 1] : List ℚ)) []
        [(0, 1), (1, 2)] 2 4 2
      = (groupUsers [(0, 1), (1, 2)]).map
          (userPrecision () (fun _ _ _ _ => ([5, 10, 0, 1] : List ℚ)) []
            [(0, 1), (1, 2)] 4 2)
    ∧ (2 : ℕ) ∉ groupUsers [(0, 1), (1, 2)] :=
  ⟨(precision_at_k_output_shape () (fun _ _ _ _ => [5, 10, 0, 1]) []
      [(0, 1), (1, 2)] 2 4 2).1,
   (precision_at_k_output_shape () (fun _ _ _ _ => [5, 10, 0, 1]) []
      [(0, 1), (1, 2)] 2 4 2).2.2.2.2 2 (by decide)⟩

/-- C8: two runs of `precision_at_k` on identical inputs whose score
functions return equal score arrays produce identical output sequences —
the evaluator is a deterministic function of the returned scores, with a
fixed tie-break, including when several items share the score at the
`k`-th rank boundary. -/
theorem precision_at_k_deterministic {μ : Type} (model : μ)
    (pred1 pred2 : PredFunc μ) (train_ratings test_ratings : Ratings)
    (no_users no_items k : ℕ)
    (h : ∀ u, pred1 model u (List.range no_items) train_ratings
        = pred2 model u (List.range no_items) train_ratings) :
    precision_at_k model pred1 train_ratings test_ratings no_users no_items k
      = precision_at_k model pred2 train_ratings test_ratings
          no_users no_items k := by
  rw [precision_at_k_eq_map, precision_at_k_eq_map]
  apply List.map_congr_left
  intro u _
  unfold userPrecision userTopK userMasked
  rw [h u]

theorem precision_at_k_deterministic_witness :
    precision_at_k () (fun _ _ _ _ => ([7, 7, 3] : List ℚ)) [] [(0, 0)] 1 3 1
      = precision_at_k () (fun _ _ _ _ => ([7, 7, 3] : List ℚ)) []
          [(0, 0)] 1 3 1 :=
  precision_at_k_deterministic () (fun _ _ _ _ => [7, 7, 3])
    (fun _ _ _ _ => [7, 7, 3]) [] [(0, 0)] 1 3 1 (fun _ => rfl)

theorem foldl_preserves {σ β : Type _} (f : σ → β → σ) (P : σ → Prop)
    (hf : ∀ s b, P s → P (f s b)) :
    ∀ (l : List β) (s : σ), P s → P (l.foldl f s)
  | [], _, h => h
  | b :: t, s, h => foldl_preserves f P hf t (f s b) (hf s b h)

theorem getD_set_self {l : List (List MScore)} {r : ℕ} {x : List MScore}
    (hr : r < l.length) : (l.set r x).getD r [] = x := by
  rw [List.getD_eq_getElem _ _ (by simpa using hr)]
  exact List.getElem_set_self _

/-- C9: neither `precision_at_k` nor `predict_from_latent` mutates its
inputs: after a call, the model (hence the embedding tables),
TrainingHistory and TestHistory equal their values before the call —
for `precision_at_k` provided the supplied score function itself leaves
those fields unchanged (it may allocate or reuse score arrays on the
heap). -/
theorem evaluator_preserves_inputs {μ : Type} (pred_func : PredFuncSt μ)
    (no_users no_items k : ℕ) (s0 : EvalSt μ)
    (hp : ∀ s u pa, (pred_func s u pa).1.model = s.model
        ∧ (pred_func s u pa).1.train_ratings = s.train_ratings
        ∧ (pred_func s u pa).1.test_ratings = s.test_ratings) :
    ((precision_at_k_st pred_func no_users no_items k s0).1.model = s0.model
      ∧ (precision_at_k_st pred_func no_users no_items k s0).1.train_ratings
          = s0.train_ratings
      ∧ (precision_at_k_st pred_func no_users no_items k s0).1.test_ratings
          = s0.test_ratings)
    ∧ ∀ (s : EvalSt LatentModel) uid pids,
        (predict_from_latent_st s uid pids).1.model = s.model
        ∧ (predict_from_latent_st s uid pids).1.train_ratings
            = s.train_ratings
        ∧ (predict_from_latent_st s uid pids).1.test_ratings
            = s.test_ratings := by
  constructor
  · refine foldl_preserves (stStep pred_func no_items k)
      (fun acc => acc.1.model = s0.model
        ∧ acc.1.train_ratings = s0.train_ratings
        ∧ acc.1.test_ratings = s0.test_ratings)
      (fun acc u hacc => ?_) (groupUsers s0.test_ratings) (s0, [])
      ⟨rfl, rfl, rfl⟩
    obtain ⟨h1, h2, h3⟩ := hacc
    obtain ⟨p1, p2, p3⟩ := hp acc.1 u (List.range no_items)
    refine ⟨?_, ?_, ?_⟩
    · show (pred_func acc.1 u (List.range no_items)).1.model = s0.model
      rw [p1, h1]
    · show (pred_func acc.1 u
        (List.range no_items)).1.train_ratings = s0.train_ratings
      rw [p2, h2]
    · show (pred_func acc.1 u
        (List.range no_items)).1.test_ratings = s0.test_ratings
      rw [p3, h3]
  · intro s uid pids
    exact ⟨rfl, rfl, rfl⟩

theorem evaluator_preserves_inputs_witness :
    (precision_at_k_st (fun s _ _ => (s, 0)) 1 2 1
        ⟨(), [(0, 0)], [(0, 1)], [[WithBot.some 4, WithBot.some 6]]⟩).1.model
      = (() : Unit)
    ∧ (precision_at_k_st (fun s _ _ => (s, 0)) 1 2 1
        ⟨(), [(0, 0)], [(0, 1)],
          [[WithBot.some 4, WithBot.some 6]]⟩).1.train_ratings
      = [(0, 0)] :=
  ⟨(evaluator_preserves_inputs (fun s _ _ => (s, 0)) 1 2 1
      ⟨(), [(0, 0)], [(0, 1)], [[WithBot.some 4, WithBot.some 6]]⟩
      (fun _ _ _ => ⟨rfl, rfl, rfl⟩)).1.1,
   (evaluator_preserves_inputs (fun s _ _ => (s, 0)) 1 2 1
      ⟨(), [(0, 0)], [(0, 1)], [[WithBot.some 4, WithBot.some 6]]⟩
      (fun _ _ _ => ⟨rfl, rfl, rfl⟩)).1.2.1⟩

/-- C10: `precision_at_k` overwrites the score array returned by the score
function in place, setting the scores of the user's TrainingHistory items
to `-inf`; consequently, if the score function returns a shared array (a
fixed heap cell `r` rather than a fresh allocation), that cell remains
modified after the call. -/
theorem score_array_mutated_in_place {μ : Type} (s0 : EvalSt μ)
    (no_users no_items k r u i : ℕ)
    (hr : r < s0.heap.length)
    (hu : u ∈ groupUsers s0.test_ratings)
    (hi : i ∈ trainPids s0.train_ratings u)
    (hil : i < (s0.heap.getD r []).length) :
    scoreAt ((precision_at_k_st (fun s _ _ => (s, r)) no_users no_items k
        s0).1.heap.getD r []) i = ⊥
    ∧ (scoreAt (s0.heap.getD r []) i ≠ ⊥ →
        (precision_at_k_st (fun s _ _ => (s, r)) no_users no_items k
          s0).1.heap ≠ s0.heap) := by
  have hstep : ∀ (acc : EvalSt μ × List ℚ) (v : ℕ),
      (stStep (fun s _ _ => (s, r)) no_items k acc v).1.heap
        = acc.1.heap.set r
            (maskWrites (acc.1.heap.getD r [])
              (trainPids acc.1.train_ratings v))
      ∧ (stStep (fun s _ _ => (s, r)) no_items k acc v).1.train_ratings
        = acc.1.train_ratings :=
    fun acc v => ⟨rfl, rfl⟩
  -- invariant: training table unchanged, heap length unchanged, cell r
  -- keeps its length
  have pres1 : ∀ (acc : EvalSt μ × List ℚ) (v : ℕ),
      (acc.1.train_ratings = s0.train_ratings
        ∧ acc.1.heap.length = s0.heap.length
        ∧ (acc.1.heap.getD r []).length = (s0.heap.getD r []).length) →
      ((stStep (fun s _ _ => (s, r)) no_items k acc v).1.train_ratings
          = s0.train_ratings
        ∧ (stStep (fun s _ _ => (s, r)) no_items k acc
            v).1.heap.length = s0.heap.length
        ∧ ((stStep (fun s _ _ => (s, r)) no_items k acc
            v).1.heap.getD r []).length = (s0.heap.getD r []).length) := by
    intro acc v hacc
    obtain ⟨h1, h2, h3⟩ := hacc
    obtain ⟨hh, ht⟩ := hstep acc v
    have hrl : r < acc.1.heap.length := by rw [h2]; exact hr
    refine ⟨by rw [ht, h1], by rw [hh, List.length_set, h2], ?_⟩
    rw [hh, getD_set_self hrl, maskWrites_length, h3]
  -- invariant additionally: the cell is already masked at index i
  have pres2 : ∀ (acc : EvalSt μ × List ℚ) (v : ℕ),
      ((acc.1.train_ratings = s0.train_ratings
        ∧ acc.1.heap.length = s0.heap.length
        ∧ (acc.1.heap.getD r []).length = (s0.heap.getD r []).length)
        ∧ scoreAt (acc.1.heap.getD r []) i = ⊥) →
      (((stStep (fun s _ _ => (s, r)) no_items k acc v).1.train_ratings
          = s0.train_ratings
        ∧ (stStep (fun s _ _ => (s, r)) no_items k acc
            v).1.heap.length = s0.heap.length
        ∧ ((stStep (fun s _ _ => (s, r)) no_items k acc
            v).1.heap.getD r []).length = (s0.heap.getD r []).length)
        ∧ scoreAt ((stStep (fun s _ _ => (s, r)) no_items k acc
            v).1.heap.getD r []) i = ⊥) := by
    intro acc v hacc
    obtain ⟨hP, hbot⟩ := hacc
    refine ⟨pres1 acc v hP, ?_⟩
    obtain ⟨h1, h2, h3⟩ := hP
    obtain ⟨hh, _⟩ := hstep acc v
    have hrl : r < acc.1.heap.length := by rw [h2]; exact hr
    rw [hh, getD_set_self hrl]
    exact scoreAt_maskWrites_of_bot (by rw [h3]; exact hil) hbot
  obtain ⟨l1, l2, hsplit⟩ := List.append_of_mem hu
  have hmain : scoreAt ((precision_at_k_st (fun s _ _ => (s, r)) no_users
      no_items k s0).1.heap.getD r []) i = ⊥ := by
    rw [precision_at_k_st, hsplit, List.foldl_append, List.foldl_cons]
    have hacc1 := foldl_preserves (stStep (fun s _ _ => (s, r)) no_items k)
      (fun acc => acc.1.train_ratings = s0.train_ratings
        ∧ acc.1.heap.length = s0.heap.length
        ∧ (acc.1.heap.getD r []).length = (s0.heap.getD r []).length)
      pres1 l1 (s0, []) ⟨rfl, rfl, rfl⟩
    set acc1 := l1.foldl (stStep (fun s _ _ => (s, r)) no_items k) (s0, [])
      with hacc1def
    have hatu : scoreAt ((stStep (fun s _ _ => (s, r)) no_items k acc1
        u).1.heap.getD r []) i = ⊥ := by
      obtain ⟨h1, h2, h3⟩ := hacc1
      obtain ⟨hh, _⟩ := hstep acc1 u
      have hrl : r < acc1.1.heap.length := by rw [h2]; exact hr
      rw [hh, getD_set_self hrl]
      exact scoreAt_maskWrites_of_mem (by rw [h3]; exact hil)
        (by rw [h1]; exact hi)
    exact (foldl_preserves (stStep (fun s _ _ => (s, r)) no_items k)
      (fun acc => (acc.1.train_ratings = s0.train_ratings
        ∧ acc.1.heap.length = s0.heap.length
        ∧ (acc.1.heap.getD r []).length = (s0.heap.getD r []).length)
        ∧ scoreAt (acc.1.heap.getD r []) i = ⊥)
      pres2 l2 (stStep (fun s _ _ => (s, r)) no_items k acc1 u)
      ⟨pres1 acc1 u hacc1, hatu⟩).2
  refine ⟨hmain, fun hne heq => hne ?_⟩
  rw [← heq]
  exact hmain

theorem score_array_mutated_in_place_witness :
    scoreAt ((precision_at_k_st (fun s _ _ => (s, 0)) 1 2 1
        ⟨(), [(0, 0)], [(0, 1)],
          [[WithBot.some 4, WithBot.some 6]]⟩).1.heap.getD 0 []) 0 = ⊥ :=
  (score_array_mutated_in_place ⟨(), [(0, 0)], [(0, 1)],
      [[WithBot.some 4, WithBot.some 6]]⟩ 1 2 1 0 0 0
      (by decide) (by decide) (by decide) (by decide)).1

end Mlbd
